import Mathlib

/-!
Verification of the task/state coordination engine of `team-tasks`
(`src/scripts/task_manager.py`), a single-file multi-agent task coordinator
with three execution modes (`linear`, `dag`, `debate`).

The Python source works on JSON-shaped dictionaries.  We embed the data
model shallowly: every dict becomes a structure with all fields present
(dict keys that the source reads with `.get(key, default)` become total
fields whose value is the default when the source never sets them).  The
source's stage dicts and task dicts have the same keys except
`dependencies`, and the generic code paths (`cmd_result`, `cmd_update`)
treat them uniformly, so both are embedded as the single structure `Item`
(stages simply always carry `dependencies = []`, matching
`t.get("dependencies", [])` on a stage dict).

Persistence (`load_project` / `save_project`) is I/O glue: commands are
embedded as pure functions `Project → ... → Except Err ...`; an `Except.error`
result corresponds to the Python command printing an error and exiting
*before* `save_project` runs, so the persisted record is unchanged.
`_now()` timestamps become an explicit `now : String` argument.
-/

namespace TeamTasks

/-- Status/result-carrying entity: a stage dict (linear mode) or a task dict
(dag mode) of the source.  Stage dicts carry no `dependencies` key, which the
source reads back as `[]`; here that is the field value `[]`. -/
structure Item where
  id : String
  agent : String
  description : String
  dependencies : List String
  status : String
  result : String
  assigned_at : String
  completed_at : String
deriving DecidableEq, Repr, Inhabited

/-- A single debate response dict (`cmd_round`, action `submit`). -/
structure Response where
  debater_id : String
  content : String
  submitted_at : String
  phase : String
deriving DecidableEq, Repr, Inhabited

/-- A debate round dict (`cmd_round`, action `start`). -/
structure Round where
  round_number : Nat
  phase : String
  started_at : String
  responses : List Response
deriving DecidableEq, Repr, Inhabited

/-- A debater dict (`cmd_add_debater`). -/
structure Debater where
  id : String
  agent : String
  perspective : String
  added_at : String
deriving DecidableEq, Repr, Inhabited

/-- The whole project record.  Mode-specific keys that are absent from a
given project's JSON are embedded as their `.get` defaults (`[]`, `0`, `""`). -/
structure Project where
  name : String
  mode : String
  goal : String
  created_at : String
  workspace : String
  stages : List Item
  current_stage : Nat
  tasks : List Item
  debaters : List Debater
  rounds : List Round
  question : String
deriving DecidableEq, Repr, Inhabited

/-- The `VALID_STATUSES` tuple of the source. -/
def VALID_STATUSES : List String :=
  ["pending", "in-progress", "done", "failed", "skipped"]

/-- Source `make_stage`: a fresh stage dict (no `dependencies` key → `[]` here). -/
def make_stage (stage_id desc agent : String) : Item :=
  { id := stage_id
    agent := if agent == "" then stage_id else agent
    description := desc
    dependencies := []
    status := "pending"
    result := ""
    assigned_at := ""
    completed_at := "" }

/-- Source `make_task`: a fresh task dict. -/
def make_task (task_id agent desc : String) (deps : List String) : Item :=
  { id := task_id
    agent := if agent == "" then task_id else agent
    description := desc
    dependencies := deps
    status := "pending"
    result := ""
    assigned_at := ""
    completed_at := "" }

/-- Source `compute_ready_tasks`: a task is kept iff its status is `"pending"` and
each of its dependency ids occurs among the ids of `"done"`-status tasks.
The Python builds `done_ids` as a set and then appends qualifying tasks in
task order; a set is used only for membership, so a list of the same ids is
an equivalent embedding, and the append loop is a `filter`. -/
def compute_ready_tasks (proj : Project) : List Item :=
  let tasks := proj.tasks
  let done_ids : List String := (tasks.filter (fun t => t.status == "done")).map (fun t => t.id)
  tasks.filter (fun t => t.status == "pending" && t.dependencies.all (fun d => done_ids.contains d))

/-! ## Cycle detection (`detect_cycles`)

The Python builds `tasks = {t["id"]: t.get("dependencies", []) for t in ...}`
(a dict: insertion-ordered first occurrences of keys, value of the *last*
occurrence) and runs a recursive three-colour DFS over it with shared
mutable `visited` / `stack` sets and a `cycles` list.  We embed the dict as
the lookup function `depsOf` plus the key list `dedupFirst (ids)`, the two
Python sets as `Finset String` fields of an explicit state, and the
unbounded recursion as fuel recursion; `detect_cycles` supplies fuel
`(allNodes ts).card + 1`, which the recursion (each call marks a fresh node
of `allNodes` visited) can never exhaust. -/

/-- Mutable state of the source's DFS: `visited`, `stack` (Python sets) and
the `cycles` output list. -/
structure DfsSt where
  visited : Finset String
  stack : Finset String
  cycles : List String
deriving DecidableEq, Inhabited

/-- The `for dep in tasks.get(node, [])` loop body of the source's `dfs`:
unvisited deps are recursed into (via `rec`, the outer `dfs` one fuel down),
a visited dep still on the stack is a back-edge (append `"node -> dep"` and
return `True`), a finished dep is skipped. -/
def dfsList (rec : String → DfsSt → Bool × DfsSt) (parent : String) :
    List String → DfsSt → Bool × DfsSt
  | [], st => (false, st)
  | d :: ds, st =>
    if d ∉ st.visited then
      match rec d st with
      | (true, st2) => (true, st2)
      | (false, st2) => dfsList rec parent ds st2
    else if d ∈ st.stack then
      (true, { st with cycles := st.cycles ++ [parent ++ " -> " ++ d] })
    else
      dfsList rec parent ds st

/-- The source's `dfs(node)`: mark `node` visited and on the stack, walk its
dependency list, and on a `False` return take `node` back off the stack
(`stack.discard(node)`); a `True` return propagates without the discard. -/
def dfs (g : String → List String) : Nat → String → DfsSt → Bool × DfsSt
  | 0, _, st => (false, st)
  | fuel + 1, node, st =>
    let st1 : DfsSt :=
      { visited := insert node st.visited, stack := insert node st.stack, cycles := st.cycles }
    match dfsList (fun d s => dfs g fuel d s) node (g node) st1 with
    | (true, st2) => (true, st2)
    | (false, st2) => (false, { st2 with stack := st2.stack.erase node })

/-- The root loop `for tid in tasks: if tid not in visited: dfs(tid)`
(the boolean result of `dfs` is ignored at the top level). -/
def detectAux (g : String → List String) (fuel : Nat) :
    List String → DfsSt → DfsSt
  | [], st => st
  | k :: ks, st =>
    if k ∉ st.visited then detectAux g fuel ks (dfs g fuel k st).2
    else detectAux g fuel ks st

/-- Dict value lookup: the Python dict comprehension keeps the value of the
last occurrence of a key; a missing key reads as `[]` (`tasks.get(node, [])`). -/
def depsOf (ts : List Item) (n : String) : List String :=
  match ts.reverse.find? (fun t => t.id == n) with
  | some t => t.dependencies
  | none => []

/-- Dict key order, with an accumulator of keys already emitted:
keep the first occurrence of each key, in insertion order. -/
def dedupFirstAux (seen : List String) : List String → List String
  | [] => []
  | x :: xs => if x ∈ seen then dedupFirstAux seen xs else x :: dedupFirstAux (x :: seen) xs

/-- Dict key order: first occurrences, in insertion order. -/
def dedupFirst (l : List String) : List String :=
  dedupFirstAux [] l

/-- Every string the DFS can ever touch: all task ids and all dependency
ids.  Used only to size the fuel. -/
def allNodes (ts : List Item) : Finset String :=
  (ts.map (fun t => t.id)).toFinset ∪ (ts.map (fun t => t.dependencies)).flatten.toFinset

/-- Source `detect_cycles`: run the DFS from every dict key in order, starting from
empty `visited` / `stack` / `cycles`, and return the collected cycle edges. -/
def detect_cycles (proj : Project) : List String :=
  let ts := proj.tasks
  (detectAux (depsOf ts) ((allNodes ts).card + 1)
    (dedupFirst (ts.map (fun t => t.id))) ⟨∅, ∅, []⟩).cycles

/-- The dependency relation of a task list, as the spec names it:
an edge `task.id → dependency` for every task of the project. -/
def depEdge (ts : List Item) (a b : String) : Prop :=
  ∃ t ∈ ts, t.id = a ∧ b ∈ t.dependencies

/-- A directed cycle in the dependency relation. -/
def hasCycle (ts : List Item) : Prop :=
  ∃ n, Relation.TransGen (depEdge ts) n n

/-! ## Command embeddings

Each `cmd_*` function of the source loads a project, mutates it, and either
saves it or prints an error and exits with status 1 before saving.  We embed
a command as a pure function returning `Except Err ...`: `.ok` carries the
project that gets saved (plus any notification the command prints), `.error`
means the command exited before `save_project`. -/

/-- The typed failures behind the source's `sys.exit(1)` paths. -/
inductive Err where
  | notFound : Err
  | invalidStatus : Err
  | wrongMode : Err
  | cycle : List String → Err
  | noActiveRound : Err
  | noRoundData : Err
  | unknownAction : Err
deriving DecidableEq, Repr, Inhabited

/-- The `for item in items: if item["id"] == target: mutate; break` pattern
shared by `cmd_update` and `cmd_result`: rewrite the first item satisfying
`p` using `f`, returning the new list, the index found and the *original*
item there; `none` when no item matches. -/
def updateFirst (p : Item → Bool) (f : Item → Item) :
    List Item → Option (List Item × Nat × Item)
  | [] => none
  | x :: xs =>
    if p x then some (f x :: xs, 0, x)
    else (updateFirst p f xs).map (fun r => (x :: r.1, r.2.1 + 1, r.2.2))

/-- The status/timestamp mutation of `cmd_update`'s loop body: set the
status; on `"in-progress"` stamp `assigned_at`, on `"done"`/`"failed"`/
`"skipped"` stamp `completed_at`. -/
def updateItem (status now : String) (item : Item) : Item :=
  let item1 := { item with status := status }
  if status == "in-progress" then { item1 with assigned_at := now }
  else if status == "done" || status == "failed" || status == "skipped" then
    { item1 with completed_at := now }
  else item1

/-- Notifications printed by `cmd_update`: the linear-mode auto-advance
target id, and the ids listed by the dag-mode unlock message (an empty list
means nothing is printed). -/
structure UpdateNote where
  advance : Option String
  unlocked : List String
deriving DecidableEq, Repr, Inhabited

/-- Source `cmd_update`: validate the status, look the target up in the
mode-appropriate collection (first match wins), mutate it, and in linear
mode auto-advance the cursor / in dag mode recompute the ready set on the
mutated project when the new status is `"done"`. -/
def cmd_update (proj : Project) (target_id status now : String) :
    Except Err (Project × UpdateNote) :=
  if ¬ VALID_STATUSES.contains status then .error .invalidStatus
  else if proj.mode == "linear" then
    match updateFirst (fun s => s.id == target_id) (updateItem status now) proj.stages with
    | none => .error .notFound
    | some (stages2, i, _) =>
      if status == "done" && i == proj.current_stage then
        .ok ({ proj with stages := stages2, current_stage := i + 1 },
             { advance := (stages2[i + 1]?).map (fun s => s.id), unlocked := [] })
      else
        .ok ({ proj with stages := stages2 }, { advance := none, unlocked := [] })
  else if proj.mode == "dag" then
    match updateFirst (fun t => t.id == target_id) (updateItem status now) proj.tasks with
    | none => .error .notFound
    | some (tasks2, _, _) =>
      let proj2 := { proj with tasks := tasks2 }
      let unlocked :=
        if status == "done" then (compute_ready_tasks proj2).map (fun t => t.id) else []
      .ok (proj2, { advance := none, unlocked := unlocked })
  else .error .wrongMode

/-- Source `cmd_add`: dag mode only; append the new task, run `detect_cycles` on
the proposed post-add record, and only save when no cycle is reported. -/
def cmd_add (proj : Project) (task_id agent desc : String) (deps : List String) :
    Except Err Project :=
  if ¬ (proj.mode == "dag") then .error .wrongMode
  else
    let proj2 := { proj with tasks := proj.tasks ++ [make_task task_id agent desc deps] }
    let cycles := detect_cycles proj2
    if cycles.isEmpty then .ok proj2 else .error (.cycle cycles)

/-- The record on disk after running an add: the proposed record when the
command saved, the pre-add record when it exited first. -/
def persistAfterAdd (proj : Project) (task_id agent desc : String)
    (deps : List String) : Project :=
  match cmd_add proj task_id agent desc deps with
  | .ok proj2 => proj2
  | .error _ => proj

/-- The source's `items = proj.get("stages" if mode == "linear" else "tasks", [])`. -/
def itemsOf (proj : Project) : List Item :=
  if proj.mode == "linear" then proj.stages else proj.tasks

/-- Writing the mode-appropriate collection back (the source mutates the
list held under the same key in place). -/
def setItems (proj : Project) (items : List Item) : Project :=
  if proj.mode == "linear" then { proj with stages := items }
  else { proj with tasks := items }

/-- The loop body of `cmd_result`: store the result text; a `"pending"`
item is additionally promoted to `"in-progress"` with `assigned_at` stamped. -/
def resultItem (text now : String) (item : Item) : Item :=
  let item1 := { item with result := text }
  if item.status == "pending" then
    { item1 with status := "in-progress", assigned_at := now }
  else item1

/-- Source `cmd_result`: record result text on the first matching stage/task. -/
def cmd_result (proj : Project) (target_id text now : String) : Except Err Project :=
  match updateFirst (fun t => t.id == target_id) (resultItem text now) (itemsOf proj) with
  | none => .error .notFound
  | some (items2, _, _) => .ok (setItems proj items2)

/-- Rewrite the last element of a round list (`rounds[-1]`, the source's
"current round"); identity on the empty list. -/
def updateLast (f : Round → Round) : List Round → List Round
  | [] => []
  | [r] => [f r]
  | r :: rs => r :: updateLast f rs

/-- Source `cmd_round`: debate-round management.  `start` appends a fresh round
numbered `len(rounds) + 1` in phase `"initial"`; `submit` appends a response
tagged with the current round's current phase; `cross-review` / `synthesize`
set the current round's phase unconditionally; `status` only prints. -/
def cmd_round (proj : Project) (action debater_id text now : String) :
    Except Err Project :=
  if ¬ (proj.mode == "debate") then .error .wrongMode
  else if action == "start" then
    .ok { proj with rounds := proj.rounds ++
          [{ round_number := proj.rounds.length + 1
             phase := "initial"
             started_at := now
             responses := [] }] }
  else if action == "submit" then
    match proj.rounds.getLast? with
    | none => .error .noActiveRound
    | some cur =>
      let resp : Response :=
        { debater_id := debater_id
          content := text
          submitted_at := now
          phase := cur.phase }
      let rounds2 := updateLast (fun r => { r with responses := r.responses ++ [resp] }) proj.rounds
      .ok { proj with rounds := rounds2 }
  else if action == "cross-review" then
    if proj.rounds.isEmpty then .error .noRoundData
    else .ok { proj with rounds := updateLast (fun r => { r with phase := "cross-review" }) proj.rounds }
  else if action == "synthesize" then
    if proj.rounds.isEmpty then .error .noRoundData
    else .ok { proj with rounds := updateLast (fun r => { r with phase := "synthesis" }) proj.rounds }
  else if action == "status" then
    .ok proj
  else .error .unknownAction

/-- The ordering of debate phases stated by the spec:
`initial → cross-review → synthesis`. -/
def phaseRank (phase : String) : Nat :=
  if phase == "synthesis" then 2
  else if phase == "cross-review" then 1
  else 0

/-- Phase of the current (most recently appended) round, when one exists. -/
def currentRoundPhase (proj : Project) : Option String :=
  (proj.rounds.getLast?).map (fun r => r.phase)

/-! ## Graph-resolver correctness: groundwork

Relational view of the DFS's input graph: `g` is the dict lookup
(`depsOf ts` in `detect_cycles`), `gEdge g a b` says the dict records an
edge `a → b`. -/

/-- Edge of the dict graph. -/
def gEdge (g : String → List String) (a b : String) : Prop := b ∈ g a

/-- Reachability (zero or more edges) in the dict graph. -/
def Reach (g : String → List String) : String → String → Prop :=
  Relation.ReflTransGen (gEdge g)

/-- The dict graph has a directed cycle. -/
def gCyclic (g : String → List String) : Prop :=
  ∃ n, Relation.TransGen (gEdge g) n n

/-- Node `n` is finished ("black") in a DFS state: visited and off the stack. -/
def FinishedAt (st : DfsSt) (n : String) : Prop :=
  n ∈ st.visited ∧ n ∉ st.stack

/-- Every finished node lies on no directed cycle.  The invariant that makes
a clean (`cycles = []`) run certify acyclicity. -/
def Safe (g : String → List String) (st : DfsSt) : Prop :=
  ∀ n, FinishedAt st n → ¬ Relation.TransGen (gEdge g) n n

/-- Every stack member reaches `n`: the stack is the chain of DFS ancestors
of the node currently being expanded. -/
def ChainTo (g : String → List String) (st : DfsSt) (n : String) : Prop :=
  ∀ s ∈ st.stack, Reach g s n

/-- The loop body only ever appends to `cycles`. -/
theorem dfsList_cyclesMono (rec : String → DfsSt → Bool × DfsSt) (parent : String)
    (hrec : ∀ d st, ∃ l, ((rec d st).2).cycles = st.cycles ++ l) :
    ∀ ds st, ∃ l, ((dfsList rec parent ds st).2).cycles = st.cycles ++ l := by
  intro ds
  induction ds with
  | nil => intro st; exact ⟨[], by simp [dfsList]⟩
  | cons d ds ih =>
    intro st
    by_cases hv : d ∈ st.visited
    · by_cases hs : d ∈ st.stack
      · exact ⟨[parent ++ " -> " ++ d], by simp [dfsList, hv, hs]⟩
      · obtain ⟨l, hl⟩ := ih st
        exact ⟨l, by simpa [dfsList, hv, hs] using hl⟩
    · rcases hr : rec d st with ⟨b, st2⟩
      obtain ⟨l1, hl1⟩ := hrec d st
      rw [hr] at hl1
      cases b with
      | true =>
        refine ⟨l1, ?_⟩
        simpa [dfsList, hv, hr] using hl1
      | false =>
        obtain ⟨l2, hl2⟩ := ih st2
        refine ⟨l1 ++ l2, ?_⟩
        simp only at hl1
        simp [dfsList, hv, hr, hl2, hl1, List.append_assoc]

/-- The function `dfs` only ever appends to `cycles`. -/
theorem dfs_cyclesMono (g : String → List String) :
    ∀ fuel node st, ∃ l, ((dfs g fuel node st).2).cycles = st.cycles ++ l := by
  intro fuel
  induction fuel with
  | zero => intro node st; exact ⟨[], by simp [dfs]⟩
  | succ fuel ih =>
    intro node st
    rcases hd : dfsList (fun d s => dfs g fuel d s) node (g node)
        ⟨insert node st.visited, insert node st.stack, st.cycles⟩ with ⟨b, st2⟩
    obtain ⟨l1, hl1⟩ := dfsList_cyclesMono (fun d s => dfs g fuel d s) node
      (fun d s => ih d s) (g node)
      ⟨insert node st.visited, insert node st.stack, st.cycles⟩
    rw [hd] at hl1
    cases b with
    | true => exact ⟨l1, by simp [dfs, hd]; exact hl1⟩
    | false => exact ⟨l1, by simp [dfs, hd]; exact hl1⟩

/-- The root loop only ever appends to `cycles`. -/
theorem detectAux_cyclesMono (g : String → List String) (fuel : Nat) :
    ∀ ks st, ∃ l, (detectAux g fuel ks st).cycles = st.cycles ++ l := by
  intro ks
  induction ks with
  | nil => intro st; exact ⟨[], by simp [detectAux]⟩
  | cons k ks ih =>
    intro st
    by_cases hv : k ∈ st.visited
    · obtain ⟨l, hl⟩ := ih st
      exact ⟨l, by simpa [detectAux, hv] using hl⟩
    · obtain ⟨l1, hl1⟩ := dfs_cyclesMono g fuel k st
      obtain ⟨l2, hl2⟩ := ih (dfs g fuel k st).2
      refine ⟨l1 ++ l2, ?_⟩
      simp [detectAux, hv, hl2, hl1, List.append_assoc]

/-! ## Soundness: every appended cycle edge witnesses a real cycle

Invariant: in a clean state the stack is exactly the chain of DFS ancestors
of the node being expanded, so a dep found on the stack closes a directed
cycle.  The lemma simultaneously shows that a clean run returns `false` and
restores the stack, which re-establishes the invariant across siblings. -/

/-- Loop-body soundness, parametric in the recursive call `rec`. -/
theorem dfsList_sound_clean (g : String → List String)
    (rec : String → DfsSt → Bool × DfsSt) (parent : String)
    (hrecMono : ∀ d st, ∃ l, ((rec d st).2).cycles = st.cycles ++ l)
    (hrec : ∀ d st, st.stack ⊆ st.visited → d ∉ st.visited → st.cycles = [] →
      ChainTo g st d →
      ((((rec d st).2).cycles ≠ [] → gCyclic g) ∧
       (((rec d st).2).cycles = [] → (rec d st).1 = false ∧
         ((rec d st).2).stack = st.stack ∧ st.visited ⊆ ((rec d st).2).visited))) :
    ∀ ds st, st.stack ⊆ st.visited → st.cycles = [] → ChainTo g st parent →
      (∀ d ∈ ds, d ∈ g parent) →
      ((((dfsList rec parent ds st).2).cycles ≠ [] → gCyclic g) ∧
       (((dfsList rec parent ds st).2).cycles = [] →
         (dfsList rec parent ds st).1 = false ∧
         ((dfsList rec parent ds st).2).stack = st.stack ∧
         st.visited ⊆ ((dfsList rec parent ds st).2).visited)) := by
  intro ds
  induction ds with
  | nil =>
    intro st _ hclean _ _
    constructor
    · intro hne; exact absurd (by simp [dfsList, hclean]) hne
    · intro _; simp [dfsList]
  | cons d ds ih =>
    intro st hsv hclean hchain hds
    by_cases hv : d ∈ st.visited
    · by_cases hs : d ∈ st.stack
      · constructor
        · intro _
          refine ⟨d, Relation.TransGen.tail' (hchain d hs) ?_⟩
          exact hds d (List.mem_cons_self d ds)
        · intro hfin
          exfalso
          simp [dfsList, hv, hs, hclean] at hfin
      · have := ih st hsv hclean hchain (fun x hx => hds x (List.mem_cons_of_mem d hx))
        simpa [dfsList, hv, hs] using this
    · rcases hr : rec d st with ⟨b1, stA⟩
      have hchd : ChainTo g st d := fun s hsm =>
        Relation.ReflTransGen.tail (hchain s hsm) (hds d (List.mem_cons_self d ds))
      have hitem := hrec d st hsv hv hclean hchd
      rw [hr] at hitem
      simp only at hitem
      cases b1 with
      | true =>
        constructor
        · intro hne
          exact hitem.1 (by simpa [dfsList, hv, hr] using hne)
        · intro hfin
          have hfin2 : stA.cycles = [] := by simpa [dfsList, hv, hr] using hfin
          exact absurd (hitem.2 hfin2).1 (by simp)
      | false =>
        by_cases hA : stA.cycles = []
        · obtain ⟨_, hstk, hvis⟩ := hitem.2 hA
          have hsub2 : stA.stack ⊆ stA.visited := by
            rw [hstk]; exact fun x hx => hvis (hsv hx)
          have hchain2 : ChainTo g stA parent := by
            intro s hsm; rw [hstk] at hsm; exact hchain s hsm
          have hrest := ih stA hsub2 hA hchain2 (fun x hx => hds x (List.mem_cons_of_mem d hx))
          constructor
          · intro hne
            exact hrest.1 (by simpa [dfsList, hv, hr] using hne)
          · intro hfin
            have hfin2 := hrest.2 (by simpa [dfsList, hv, hr] using hfin)
            refine ⟨by simpa [dfsList, hv, hr] using hfin2.1, ?_, ?_⟩
            · rw [show ((dfsList rec parent (d :: ds) st).2).stack =
                  ((dfsList rec parent ds stA).2).stack by simp [dfsList, hv, hr]]
              rw [hfin2.2.1, hstk]
            · intro x hx
              have hx2 : x ∈ ((dfsList rec parent ds stA).2).visited := hfin2.2.2 (hvis hx)
              simpa [dfsList, hv, hr] using hx2
        · constructor
          · intro _; exact hitem.1 hA
          · intro hfin
            exfalso
            obtain ⟨l, hl⟩ := dfsList_cyclesMono rec parent hrecMono ds stA
            have hnil : stA.cycles ++ l = [] := by
              rw [← hl]; simpa [dfsList, hv, hr] using hfin
            exact hA (List.append_eq_nil.mp hnil).1

/-- Soundness of `dfs`: in a clean state whose stack chains to `node`, a dirty
result implies a real cycle, and a clean result returns `false` with the
stack restored and `visited` only grown. -/
theorem dfs_sound_clean (g : String → List String) :
    ∀ fuel node st, st.stack ⊆ st.visited → node ∉ st.visited → st.cycles = [] →
      ChainTo g st node →
      ((((dfs g fuel node st).2).cycles ≠ [] → gCyclic g) ∧
       (((dfs g fuel node st).2).cycles = [] → (dfs g fuel node st).1 = false ∧
         ((dfs g fuel node st).2).stack = st.stack ∧
         st.visited ⊆ ((dfs g fuel node st).2).visited)) := by
  intro fuel
  induction fuel with
  | zero =>
    intro node st _ _ hclean _
    constructor
    · intro hne; exact absurd (by simp [dfs, hclean]) hne
    · intro _; simp [dfs]
  | succ fuel ih =>
    intro node st hsv hnv hclean hchain
    set st1 : DfsSt := ⟨insert node st.visited, insert node st.stack, st.cycles⟩ with hst1
    have hsv1 : st1.stack ⊆ st1.visited := by
      simp only [hst1]
      exact Finset.insert_subset_insert node hsv
    have hchain1 : ChainTo g st1 node := by
      intro s hsm
      simp only [hst1, Finset.mem_insert] at hsm
      rcases hsm with rfl | hsm
      · exact Relation.ReflTransGen.refl
      · exact hchain s hsm
    have hmain := dfsList_sound_clean g (fun d s => dfs g fuel d s) node
      (fun d s => dfs_cyclesMono g fuel d s)
      (fun d s h1 h2 h3 h4 => ih d s h1 h2 h3 h4)
      (g node) st1 hsv1 hclean hchain1 (fun d hd => hd)
    rcases hd : dfsList (fun d s => dfs g fuel d s) node (g node) st1 with ⟨b2, st2⟩
    rw [hd] at hmain
    simp only at hmain
    cases b2 with
    | true =>
      constructor
      · intro hne
        exact hmain.1 (by simpa [dfs, ← hst1, hd] using hne)
      · intro hfin
        have hfin2 : st2.cycles = [] := by simpa [dfs, ← hst1, hd] using hfin
        exact absurd (hmain.2 hfin2).1 (by simp)
    | false =>
      constructor
      · intro hne
        exact hmain.1 (by simpa [dfs, ← hst1, hd] using hne)
      · intro hfin
        have hfin2 : st2.cycles = [] := by simpa [dfs, ← hst1, hd] using hfin
        obtain ⟨_, hstk, hvis⟩ := hmain.2 hfin2
        have hnstk : node ∉ st.stack := fun h => hnv (hsv h)
        refine ⟨by simp [dfs, ← hst1, hd], ?_, ?_⟩
        · rw [show ((dfs g (fuel + 1) node st).2).stack = st2.stack.erase node by
            simp [dfs, ← hst1, hd]]
          rw [hstk]
          show (insert node st.stack).erase node = st.stack
          exact Finset.erase_insert hnstk
        · intro x hx
          have hx1 : x ∈ st1.visited := by
            simp only [hst1, Finset.mem_insert]; exact Or.inr hx
          have hx2 : x ∈ st2.visited := hvis hx1
          simpa [dfs, ← hst1, hd] using hx2

/-- Root-loop soundness: starting from an empty stack and no recorded
cycles, a non-empty `cycles` output means the graph really is cyclic. -/
theorem detectAux_sound (g : String → List String) (fuel : Nat) :
    ∀ ks st, st.stack = ∅ → st.cycles = [] →
      (detectAux g fuel ks st).cycles ≠ [] → gCyclic g := by
  intro ks
  induction ks with
  | nil =>
    intro st _ hclean hne
    exact absurd (by simpa [detectAux] using hclean) hne
  | cons k ks ih =>
    intro st hstk hclean hne
    by_cases hv : k ∈ st.visited
    · exact ih st hstk hclean (by simpa [detectAux, hv] using hne)
    · have hsv : st.stack ⊆ st.visited := by rw [hstk]; exact Finset.empty_subset _
      have hchain : ChainTo g st k := by
        intro s hsm; rw [hstk] at hsm; exact absurd hsm (Finset.not_mem_empty s)
      have hmain := dfs_sound_clean g fuel k st hsv hv hclean hchain
      by_cases hA : ((dfs g fuel k st).2).cycles = []
      · obtain ⟨_, hstk2, _⟩ := hmain.2 hA
        exact ih (dfs g fuel k st).2 (by rw [hstk2, hstk]) hA
          (by simpa [detectAux, hv] using hne)
      · exact hmain.1 hA

/-! ## Completeness: a clean run certifies acyclicity

Invariant `Safe`: every finished (visited, off-stack) node lies on no
directed cycle.  When `dfs node` returns cleanly every dependency of `node`
has been finished, so a cycle through `node` would close through a finished
dependency, contradicting its safety; hence `node` itself finishes safe.
The fuel bound `(U \ visited).card < fuel` shows the fuel supplied by
`detect_cycles` is never exhausted. -/

/-- Loop-body completeness invariant, parametric in the recursive call. -/
theorem dfsList_clean_full (g : String → List String) (U : Finset String)
    (hU : ∀ n, ∀ d ∈ g n, d ∈ U)
    (rec : String → DfsSt → Bool × DfsSt) (parent : String) (fuel : Nat)
    (hrecMono : ∀ d st, ∃ l, ((rec d st).2).cycles = st.cycles ++ l)
    (hrec : ∀ d st, st.stack ⊆ st.visited → st.visited ⊆ U → d ∈ U → d ∉ st.visited →
      Safe g st → (U \ st.visited).card < fuel → ((rec d st).2).cycles = [] →
      ((rec d st).1 = false ∧ ((rec d st).2).stack = st.stack ∧
       st.visited ⊆ ((rec d st).2).visited ∧ ((rec d st).2).visited ⊆ U ∧
       d ∈ ((rec d st).2).visited ∧ Safe g ((rec d st).2) ∧
       (∀ n, FinishedAt st n → FinishedAt ((rec d st).2) n))) :
    ∀ ds st, st.stack ⊆ st.visited → st.visited ⊆ U → (∀ d ∈ ds, d ∈ g parent) →
      Safe g st → (U \ st.visited).card < fuel →
      ((dfsList rec parent ds st).2).cycles = [] →
      ((dfsList rec parent ds st).1 = false ∧
       ((dfsList rec parent ds st).2).stack = st.stack ∧
       st.visited ⊆ ((dfsList rec parent ds st).2).visited ∧
       ((dfsList rec parent ds st).2).visited ⊆ U ∧
       Safe g ((dfsList rec parent ds st).2) ∧
       (∀ n, FinishedAt st n → FinishedAt ((dfsList rec parent ds st).2) n) ∧
       (∀ d ∈ ds, FinishedAt ((dfsList rec parent ds st).2) d)) := by
  intro ds
  induction ds with
  | nil =>
    intro st _ hvU _ hsafe _ _
    refine ⟨by simp [dfsList], by simp [dfsList], by simp [dfsList], ?_, ?_, ?_, ?_⟩
    · simpa [dfsList] using hvU
    · simpa [dfsList] using hsafe
    · intro n h; simpa [dfsList] using h
    · intro d hd; exact absurd hd (List.not_mem_nil d)
  | cons d ds ih =>
    intro st hsv hvU hds hsafe hcard hclean
    by_cases hv : d ∈ st.visited
    · by_cases hs : d ∈ st.stack
      · exfalso
        simp [dfsList, hv, hs] at hclean
      · have hrest := ih st hsv hvU (fun x hx => hds x (List.mem_cons_of_mem d hx))
          hsafe hcard (by simpa [dfsList, hv, hs] using hclean)
        have heq : dfsList rec parent (d :: ds) st = dfsList rec parent ds st := by
          simp [dfsList, hv, hs]
        rw [heq]
        obtain ⟨h1, h2, h3, h4, h5, h6, h7⟩ := hrest
        refine ⟨h1, h2, h3, h4, h5, h6, ?_⟩
        intro x hx
        rcases List.mem_cons.mp hx with rfl | hx
        · exact h6 x ⟨hv, hs⟩
        · exact h7 x hx
    · rcases hr : rec d st with ⟨b1, stA⟩
      have hdU : d ∈ U := hU parent d (hds d (List.mem_cons_self d ds))
      cases b1 with
      | true =>
        exfalso
        have hA : stA.cycles = [] := by simpa [dfsList, hv, hr] using hclean
        have := (hrec d st hsv hvU hdU hv hsafe hcard (by rw [hr]; exact hA)).1
        rw [hr] at this
        simp at this
      | false =>
        have heq : dfsList rec parent (d :: ds) st = dfsList rec parent ds stA := by
          simp [dfsList, hv, hr]
        rw [heq] at hclean ⊢
        have hA : stA.cycles = [] := by
          obtain ⟨l, hl⟩ := dfsList_cyclesMono rec parent hrecMono ds stA
          rw [hl] at hclean
          exact (List.append_eq_nil.mp hclean).1
        have hrecOut := hrec d st hsv hvU hdU hv hsafe hcard (by rw [hr]; exact hA)
        rw [hr] at hrecOut
        simp only at hrecOut
        obtain ⟨_, hstkA, hvisA, hvUA, hdA, hsafeA, hfinA⟩ := hrecOut
        have hsvA : stA.stack ⊆ stA.visited := by
          rw [hstkA]; exact fun x hx => hvisA (hsv hx)
        have hcardA : (U \ stA.visited).card < fuel :=
          Nat.lt_of_le_of_lt
            (Finset.card_le_card (Finset.sdiff_subset_sdiff (Finset.Subset.refl U) hvisA))
            hcard
        have hrest := ih stA hsvA hvUA (fun x hx => hds x (List.mem_cons_of_mem d hx))
          hsafeA hcardA hclean
        obtain ⟨h1, h2, h3, h4, h5, h6, h7⟩ := hrest
        refine ⟨h1, by rw [h2, hstkA], fun x hx => h3 (hvisA hx), h4, h5, ?_, ?_⟩
        · intro n hn
          exact h6 n (hfinA n hn)
        · intro x hx
          rcases List.mem_cons.mp hx with rfl | hx
          · refine h6 x ⟨hdA, ?_⟩
            rw [hstkA]
            exact fun h => hv (hsv h)
          · exact h7 x hx

/-- Completeness invariant of `dfs`: a clean `dfs node` call finishes `node`
safe — every dependency was finished safe, so no cycle passes through
`node` — while preserving the stack and growing `visited` within `U`. -/
theorem dfs_clean_full (g : String → List String) (U : Finset String)
    (hU : ∀ n, ∀ d ∈ g n, d ∈ U) :
    ∀ fuel node st, st.stack ⊆ st.visited → st.visited ⊆ U → node ∈ U →
      node ∉ st.visited → Safe g st → (U \ st.visited).card < fuel →
      ((dfs g fuel node st).2).cycles = [] →
      ((dfs g fuel node st).1 = false ∧
       ((dfs g fuel node st).2).stack = st.stack ∧
       st.visited ⊆ ((dfs g fuel node st).2).visited ∧
       ((dfs g fuel node st).2).visited ⊆ U ∧
       node ∈ ((dfs g fuel node st).2).visited ∧
       Safe g ((dfs g fuel node st).2) ∧
       (∀ n, FinishedAt st n → FinishedAt ((dfs g fuel node st).2) n)) := by
  intro fuel
  induction fuel with
  | zero =>
    intro node st _ _ _ _ _ hcard _
    exact absurd hcard (Nat.not_lt_zero _)
  | succ fuel ih =>
    intro node st hsv hvU hnU hnv hsafe hcard hclean
    set st1 : DfsSt := ⟨insert node st.visited, insert node st.stack, st.cycles⟩ with hst1
    have hsv1 : st1.stack ⊆ st1.visited := Finset.insert_subset_insert node hsv
    have hvU1 : st1.visited ⊆ U := by
      show insert node st.visited ⊆ U
      exact Finset.insert_subset_iff.mpr ⟨hnU, hvU⟩
    have hsafe1 : Safe g st1 := by
      intro n hn
      obtain ⟨hn1, hn2⟩ := hn
      simp only [hst1, Finset.mem_insert, not_or] at hn1 hn2
      exact hsafe n ⟨hn1.resolve_left hn2.1, hn2.2⟩
    have hcard1 : (U \ st1.visited).card < fuel := by
      have hmem : node ∈ U \ st.visited := Finset.mem_sdiff.mpr ⟨hnU, hnv⟩
      have hset : U \ st1.visited = (U \ st.visited).erase node := by
        ext a
        simp only [hst1, Finset.mem_sdiff, Finset.mem_insert, Finset.mem_erase, not_or]
        tauto
      rw [hset, Finset.card_erase_of_mem hmem]
      have hpos : 0 < (U \ st.visited).card := Finset.card_pos.mpr ⟨node, hmem⟩
      omega
    rcases hd : dfsList (fun d s => dfs g fuel d s) node (g node) st1 with ⟨b2, st2⟩
    have hmain := dfsList_clean_full g U hU (fun d s => dfs g fuel d s) node fuel
      (fun d s => dfs_cyclesMono g fuel d s)
      (fun d s a1 a2 a3 a4 a5 a6 a7 => ih d s a1 a2 a3 a4 a5 a6 a7)
      (g node) st1 hsv1 hvU1 (fun d hd2 => hd2) hsafe1 hcard1
    rw [hd] at hmain
    simp only at hmain
    cases b2 with
    | true =>
      exfalso
      have hA : st2.cycles = [] := by simpa [dfs, ← hst1, hd] using hclean
      simpa using (hmain hA).1
    | false =>
      have hA : st2.cycles = [] := by simpa [dfs, ← hst1, hd] using hclean
      obtain ⟨_, hstk, hvis, hvU2, hsafe2, hfin2, hdsFin⟩ := hmain hA
      have hnstk : node ∉ st.stack := fun h => hnv (hsv h)
      have houtStack : ((dfs g (fuel + 1) node st).2).stack = st.stack := by
        rw [show ((dfs g (fuel + 1) node st).2).stack = st2.stack.erase node by
          simp [dfs, ← hst1, hd]]
        rw [hstk]
        show (insert node st.stack).erase node = st.stack
        exact Finset.erase_insert hnstk
      have houtVis : ((dfs g (fuel + 1) node st).2).visited = st2.visited := by
        simp [dfs, ← hst1, hd]
      have hvisIn : st.visited ⊆ st2.visited := fun x hx =>
        hvis (Finset.mem_insert_of_mem hx)
      have hnodeIn : node ∈ st2.visited :=
        hvis (Finset.mem_insert_self node st.visited)
      refine ⟨by simp [dfs, ← hst1, hd], houtStack, ?_, ?_, ?_, ?_, ?_⟩
      · rw [houtVis]; exact hvisIn
      · rw [houtVis]; exact hvU2
      · rw [houtVis]; exact hnodeIn
      · intro n hn hcyc
        obtain ⟨hn1, hn2⟩ := hn
        rw [houtVis] at hn1
        rw [houtStack] at hn2
        by_cases hn3 : n ∈ st2.stack
        · have hneq : n = node := by
            rw [hstk] at hn3
            simp only [hst1, Finset.mem_insert] at hn3
            exact hn3.resolve_right hn2
          subst hneq
          obtain ⟨w, hedge, hrt⟩ := Relation.TransGen.head'_iff.mp hcyc
          exact hsafe2 w (hdsFin w hedge) (Relation.TransGen.tail' hrt hedge)
        · exact hsafe2 n ⟨hn1, hn3⟩ hcyc
      · intro n hn
        obtain ⟨hn1, hn2⟩ := hn
        constructor
        · rw [houtVis]; exact hvisIn hn1
        · rw [houtStack]; exact hn2

/-- Root-loop completeness invariant: a clean full run visits every key and
ends in a `Safe` state with the stack restored. -/
theorem detectAux_clean_full (g : String → List String) (U : Finset String)
    (hU : ∀ n, ∀ d ∈ g n, d ∈ U) (fuel : Nat) :
    ∀ ks st, st.stack ⊆ st.visited → st.visited ⊆ U → (∀ k ∈ ks, k ∈ U) →
      Safe g st → (U \ st.visited).card < fuel →
      (detectAux g fuel ks st).cycles = [] →
      ((detectAux g fuel ks st).stack = st.stack ∧
       st.visited ⊆ (detectAux g fuel ks st).visited ∧
       (detectAux g fuel ks st).visited ⊆ U ∧
       Safe g (detectAux g fuel ks st) ∧
       (∀ k ∈ ks, k ∈ (detectAux g fuel ks st).visited)) := by
  intro ks
  induction ks with
  | nil =>
    intro st _ hvU _ hsafe _ _
    refine ⟨by simp [detectAux], by simp [detectAux], ?_, ?_, ?_⟩
    · simpa [detectAux] using hvU
    · simpa [detectAux] using hsafe
    · intro k hk; exact absurd hk (List.not_mem_nil k)
  | cons k ks ih =>
    intro st hsv hvU hks hsafe hcard hclean
    by_cases hv : k ∈ st.visited
    · have heq : detectAux g fuel (k :: ks) st = detectAux g fuel ks st := by
        simp [detectAux, hv]
      rw [heq] at hclean ⊢
      obtain ⟨h1, h2, h3, h4, h5⟩ := ih st hsv hvU
        (fun x hx => hks x (List.mem_cons_of_mem k hx)) hsafe hcard hclean
      refine ⟨h1, h2, h3, h4, ?_⟩
      intro x hx
      rcases List.mem_cons.mp hx with rfl | hx
      · exact h2 hv
      · exact h5 x hx
    · have heq : detectAux g fuel (k :: ks) st = detectAux g fuel ks (dfs g fuel k st).2 := by
        simp [detectAux, hv]
      rw [heq] at hclean ⊢
      have hA : ((dfs g fuel k st).2).cycles = [] := by
        obtain ⟨l, hl⟩ := detectAux_cyclesMono g fuel ks (dfs g fuel k st).2
        rw [hl] at hclean
        exact (List.append_eq_nil.mp hclean).1
      obtain ⟨_, hstkA, hvisA, hvUA, hkA, hsafeA, _⟩ :=
        dfs_clean_full g U hU fuel k st hsv hvU (hks k (List.mem_cons_self k ks)) hv
          hsafe hcard hA
      have hsvA : ((dfs g fuel k st).2).stack ⊆ ((dfs g fuel k st).2).visited := by
        rw [hstkA]; exact fun x hx => hvisA (hsv hx)
      have hcardA : (U \ ((dfs g fuel k st).2).visited).card < fuel :=
        Nat.lt_of_le_of_lt
          (Finset.card_le_card (Finset.sdiff_subset_sdiff (Finset.Subset.refl U) hvisA))
          hcard
      obtain ⟨h1, h2, h3, h4, h5⟩ := ih (dfs g fuel k st).2 hsvA hvUA
        (fun x hx => hks x (List.mem_cons_of_mem k hx)) hsafeA hcardA hclean
      refine ⟨by rw [h1, hstkA], fun x hx => h2 (hvisA hx), h3, h4, ?_⟩
      intro x hx
      rcases List.mem_cons.mp hx with rfl | hx
      · exact h2 hkA
      · exact h5 x hx

/-! ## Bridging the dict graph and the task-list relation -/

theorem mem_dedupFirstAux :
    ∀ (l seen : List String) (x : String),
      x ∈ dedupFirstAux seen l ↔ x ∈ l ∧ x ∉ seen := by
  intro l
  induction l with
  | nil => intro seen x; simp [dedupFirstAux]
  | cons a l ih =>
    intro seen x
    by_cases ha : a ∈ seen
    · rw [show dedupFirstAux seen (a :: l) = dedupFirstAux seen l by simp [dedupFirstAux, ha]]
      rw [ih seen x]
      constructor
      · rintro ⟨hl, hs⟩; exact ⟨List.mem_cons_of_mem a hl, hs⟩
      · rintro ⟨hor, hs⟩
        rcases List.mem_cons.mp hor with rfl | hl
        · exact absurd ha hs
        · exact ⟨hl, hs⟩
    · rw [show dedupFirstAux seen (a :: l) = a :: dedupFirstAux (a :: seen) l by
        simp [dedupFirstAux, ha]]
      constructor
      · intro hx
        rcases List.mem_cons.mp hx with rfl | hx
        · exact ⟨List.mem_cons_self x l, ha⟩
        · rw [ih (a :: seen) x] at hx
          obtain ⟨hl, hs⟩ := hx
          exact ⟨List.mem_cons_of_mem a hl,
            fun h => hs (List.mem_cons_of_mem a h)⟩
      · rintro ⟨hor, hs⟩
        rcases List.mem_cons.mp hor with rfl | hl
        · exact List.mem_cons_self x _
        · by_cases hxa : x = a
          · subst hxa; exact List.mem_cons_self x _
          · refine List.mem_cons_of_mem a ?_
            rw [ih (a :: seen) x]
            refine ⟨hl, fun h => ?_⟩
            rcases List.mem_cons.mp h with h2 | h2
            · exact hxa h2
            · exact hs h2

theorem mem_dedupFirst (l : List String) (x : String) :
    x ∈ dedupFirst l ↔ x ∈ l := by
  simp [dedupFirst, mem_dedupFirstAux]

/-- Every dict value entry lies in `allNodes`. -/
theorem depsOf_sub_allNodes (ts : List Item) (m d : String) (hd : d ∈ depsOf ts m) :
    d ∈ allNodes ts := by
  unfold depsOf at hd
  cases hf : ts.reverse.find? (fun t => t.id == m) with
  | none => rw [hf] at hd; simp at hd
  | some t =>
    rw [hf] at hd
    have ht : t ∈ ts := List.mem_reverse.mp (List.mem_of_find?_eq_some hf)
    unfold allNodes
    apply Finset.mem_union_right
    rw [List.mem_toFinset]
    rw [List.mem_flatten]
    exact ⟨t.dependencies, List.mem_map_of_mem (fun t2 => t2.dependencies) ht, hd⟩

/-- A node with an outgoing dict edge is a dict key. -/
theorem depsOf_key (ts : List Item) (m d : String) (hd : d ∈ depsOf ts m) :
    m ∈ ts.map (fun t => t.id) := by
  unfold depsOf at hd
  cases hf : ts.reverse.find? (fun t => t.id == m) with
  | none => rw [hf] at hd; simp at hd
  | some t =>
    have ht : t ∈ ts := List.mem_reverse.mp (List.mem_of_find?_eq_some hf)
    have hid : t.id = m := by
      have hp := List.find?_some hf
      simpa using hp
    exact hid ▸ List.mem_map_of_mem (fun t2 => t2.id) ht

/-- Soundness of `detect_cycles` at the top level: a non-empty report means the
dict graph is cyclic. -/
theorem detect_cycles_gSound (proj : Project) (h : detect_cycles proj ≠ []) :
    gCyclic (depsOf proj.tasks) := by
  apply detectAux_sound (depsOf proj.tasks) ((allNodes proj.tasks).card + 1)
    (dedupFirst (proj.tasks.map (fun t => t.id))) ⟨∅, ∅, []⟩ rfl rfl
  simpa [detect_cycles] using h

/-- Completeness of `detect_cycles` at the top level: an empty report means the
dict graph is acyclic. -/
theorem detect_cycles_gComplete (proj : Project) (h : detect_cycles proj = []) :
    ¬ gCyclic (depsOf proj.tasks) := by
  rintro ⟨n, hcyc⟩
  have hU : ∀ m, ∀ d ∈ depsOf proj.tasks m, d ∈ allNodes proj.tasks :=
    fun m d hd => depsOf_sub_allNodes proj.tasks m d hd
  have hks : ∀ k ∈ dedupFirst (proj.tasks.map (fun t => t.id)), k ∈ allNodes proj.tasks := by
    intro k hk
    rw [mem_dedupFirst] at hk
    exact Finset.mem_union_left _ (List.mem_toFinset.mpr hk)
  have hclean : (detectAux (depsOf proj.tasks) ((allNodes proj.tasks).card + 1)
      (dedupFirst (proj.tasks.map (fun t => t.id))) ⟨∅, ∅, []⟩).cycles = [] := by
    simpa [detect_cycles] using h
  obtain ⟨hstk, _, _, hsafe, hkeys⟩ :=
    detectAux_clean_full (depsOf proj.tasks) (allNodes proj.tasks) hU
      ((allNodes proj.tasks).card + 1)
      (dedupFirst (proj.tasks.map (fun t => t.id))) ⟨∅, ∅, []⟩
      (Finset.empty_subset _) (Finset.empty_subset _) hks
      (fun n2 hn2 => absurd hn2.1 (Finset.not_mem_empty n2))
      (by rw [show (DfsSt.mk ∅ ∅ []).visited = ∅ from rfl, Finset.sdiff_empty]
          exact Nat.lt_succ_self _)
      hclean
  obtain ⟨w, hedge, _⟩ := Relation.TransGen.head'_iff.mp hcyc
  have hkey : n ∈ proj.tasks.map (fun t => t.id) := depsOf_key proj.tasks n w hedge
  refine hsafe n ⟨hkeys n ((mem_dedupFirst _ n).mpr hkey), ?_⟩ hcyc
  rw [hstk]
  exact Finset.not_mem_empty n

/-- Members mapping to equal keys are equal when the mapped list has no
duplicates. -/
theorem nodup_map_mem_inj {f : Item → String} {l : List Item}
    (hn : (l.map f).Nodup) :
    ∀ a ∈ l, ∀ b ∈ l, f a = f b → a = b := by
  induction l with
  | nil => intro a ha; exact absurd ha (List.not_mem_nil a)
  | cons x xs ih =>
    simp only [List.map_cons, List.nodup_cons] at hn
    obtain ⟨hx, hxs⟩ := hn
    intro a ha b hb hab
    rcases List.mem_cons.mp ha with rfl | ha2 <;> rcases List.mem_cons.mp hb with rfl | hb2
    · rfl
    · exfalso; rw [hab] at hx; exact hx (List.mem_map_of_mem f hb2)
    · exfalso; rw [← hab] at hx; exact hx (List.mem_map_of_mem f ha2)
    · exact ih hxs a ha2 b hb2 hab

/-- With unique task ids, the dict graph's edges are exactly the task-list
dependency relation. -/
theorem mem_depsOf_iff (ts : List Item) (hn : (ts.map (fun t => t.id)).Nodup)
    (a b : String) : b ∈ depsOf ts a ↔ depEdge ts a b := by
  constructor
  · intro hb
    unfold depsOf at hb
    cases hf : ts.reverse.find? (fun t => t.id == a) with
    | none => rw [hf] at hb; simp at hb
    | some t =>
      rw [hf] at hb
      have ht : t ∈ ts := List.mem_reverse.mp (List.mem_of_find?_eq_some hf)
      have hid : t.id = a := by
        have hp := List.find?_some hf
        simpa using hp
      exact ⟨t, ht, hid, hb⟩
  · rintro ⟨t, ht, hid, hb⟩
    unfold depsOf
    cases hf : ts.reverse.find? (fun t2 => t2.id == a) with
    | none =>
      exfalso
      have := List.find?_eq_none.mp hf t (List.mem_reverse.mpr ht)
      simp [hid] at this
    | some t2 =>
      have ht2 : t2 ∈ ts := List.mem_reverse.mp (List.mem_of_find?_eq_some hf)
      have hid2 : t2.id = a := by
        have hp := List.find?_some hf
        simpa using hp
      have heq : t2 = t := nodup_map_mem_inj hn t2 ht2 t ht (by rw [hid2, hid])
      rw [heq]
      exact hb

/-- With unique task ids, the dict graph is cyclic iff the task-list
dependency relation is. -/
theorem gCyclic_iff_hasCycle (ts : List Item)
    (hn : (ts.map (fun t => t.id)).Nodup) :
    gCyclic (depsOf ts) ↔ hasCycle ts := by
  constructor <;> rintro ⟨n, h⟩ <;> refine ⟨n, Relation.TransGen.mono ?_ h⟩
  · intro a b hab
    exact (mem_depsOf_iff ts hn a b).mp hab
  · intro a b hab
    exact (mem_depsOf_iff ts hn a b).mpr hab

/-- The usable forms: `detect_cycles` is empty iff the project's task
dependency relation is acyclic (unique ids). -/
theorem detect_cycles_empty_iff (proj : Project)
    (hn : (proj.tasks.map (fun t => t.id)).Nodup) :
    detect_cycles proj = [] ↔ ¬ hasCycle proj.tasks := by
  constructor
  · intro h hc
    exact detect_cycles_gComplete proj h ((gCyclic_iff_hasCycle proj.tasks hn).mpr hc)
  · intro h
    by_contra hne
    exact h ((gCyclic_iff_hasCycle proj.tasks hn).mp (detect_cycles_gSound proj hne))

/-! ## Helper lemmas about the shared loop patterns -/

/-- No item matches: the loop falls through and the command reports
not-found. -/
theorem updateFirst_eq_none (p : Item → Bool) (f : Item → Item) :
    ∀ l : List Item, (∀ x ∈ l, p x = false) → updateFirst p f l = none := by
  intro l
  induction l with
  | nil => intro _; rfl
  | cons a l ih =>
    intro h
    have ha : p a = false := h a (List.mem_cons_self a l)
    simp [updateFirst, ha, ih (fun x hx => h x (List.mem_cons_of_mem a hx))]

/-- With unique ids, looking up `target` rewrites exactly the item at its
index. -/
theorem updateFirst_nodup (f : Item → Item) (target : String) :
    ∀ (l : List Item) (i : Nat) (x : Item),
      (l.map (fun t => t.id)).Nodup → l[i]? = some x → x.id = target →
      updateFirst (fun y => y.id == target) f l = some (l.set i (f x), i, x) := by
  intro l
  induction l with
  | nil => intro i x _ hi; simp at hi
  | cons a l ih =>
    intro i x hn hi hx
    simp only [List.map_cons, List.nodup_cons] at hn
    obtain ⟨hnota, hn2⟩ := hn
    cases i with
    | zero =>
      rw [List.getElem?_cons_zero] at hi
      obtain rfl : a = x := Option.some.inj hi
      have hpa : (a.id == target) = true := by simp [hx]
      simp [updateFirst, hpa]
    | succ j =>
      rw [List.getElem?_cons_succ] at hi
      have hxl : x ∈ l := List.mem_iff_getElem?.mpr ⟨j, hi⟩
      have hpa : (a.id == target) = false := by
        have : a.id ≠ target := by
          intro he
          exact hnota (by rw [he, ← hx]; exact List.mem_map_of_mem (fun t => t.id) hxl)
        simpa using this
      simp [updateFirst, hpa, ih j x hn2 hi hx, List.set_cons_succ]

/-- The helper `updateItem` never touches the identity or structural fields. -/
theorem updateItem_frame (status now : String) (item : Item) :
    (updateItem status now item).id = item.id ∧
    (updateItem status now item).agent = item.agent ∧
    (updateItem status now item).description = item.description ∧
    (updateItem status now item).dependencies = item.dependencies ∧
    (updateItem status now item).result = item.result ∧
    (updateItem status now item).status = status := by
  unfold updateItem
  split_ifs <;> simp

/-- Membership characterisation of `compute_ready_tasks`: kept iff pending
with every dependency id among the ids of done tasks. -/
theorem mem_compute_ready (proj : Project) (t : Item) :
    t ∈ compute_ready_tasks proj ↔
      (t ∈ proj.tasks ∧ t.status = "pending" ∧
       ∀ d ∈ t.dependencies, ∃ u, u ∈ proj.tasks ∧ u.id = d ∧ u.status = "done") := by
  unfold compute_ready_tasks
  rw [List.mem_filter]
  simp only [Bool.and_eq_true, beq_iff_eq, List.all_eq_true, List.mem_map, List.mem_filter]
  constructor
  · rintro ⟨ht, hp, hall⟩
    refine ⟨ht, hp, fun d hd => ?_⟩
    have := hall d hd
    rw [List.contains_iff_exists_mem_beq] at this
    obtain ⟨d2, hd2, hbeq⟩ := this
    obtain rfl : d = d2 := by simpa using hbeq
    obtain ⟨u, huf, hid⟩ := List.mem_map.mp hd2
    obtain ⟨hu, hus⟩ := List.mem_filter.mp huf
    exact ⟨u, hu, hid, by simpa using hus⟩
  · rintro ⟨ht, hp, hdep⟩
    refine ⟨ht, hp, fun d hd => ?_⟩
    obtain ⟨u, hu, hid, hus⟩ := hdep d hd
    rw [List.contains_iff_exists_mem_beq]
    refine ⟨d, ?_, by simp⟩
    exact List.mem_map.mpr ⟨u, List.mem_filter.mpr ⟨hu, by simp [hus]⟩, hid⟩

/-! ## Shared example projects for witnesses -/

/-- An empty project record used as the base of concrete examples. -/
def exBase : Project :=
  { name := "p"
    mode := "dag"
    goal := ""
    created_at := ""
    workspace := ""
    stages := []
    current_stage := 0
    tasks := []
    debaters := []
    rounds := []
    question := "" }

/-- Dag example: `a` done, `b` waiting on `a`, `c` independent and pending. -/
def exDag : Project :=
  { exBase with tasks :=
      [{ make_task "a" "" "" [] with status := "done", completed_at := "t0" },
       make_task "b" "" "" ["a"],
       make_task "c" "" "" []] }

/-- Debate example: one round already in phase `synthesis`. -/
def exDebate : Project :=
  { exBase with
    mode := "debate"
    rounds := [{ round_number := 1, phase := "synthesis", started_at := "t0", responses := [] }] }

/-- Linear example: three stages, cursor at 0. -/
def exLinear : Project :=
  { exBase with
    mode := "linear"
    stages := [make_stage "x" "" "", make_stage "y" "" "", make_stage "z" "" ""] }

/-! ## Claims -/

/-- C1: for every dag-mode project, `ready_tasks` returns exactly the tasks
whose status is `pending` and whose every dependency id belongs to a task
whose status is `done`; a task with a dependency on a nonexistent task id is
never returned as ready. -/
theorem claim_C1 (proj : Project) (hm : proj.mode = "dag") :
    (∀ t, t ∈ compute_ready_tasks proj ↔
      (t ∈ proj.tasks ∧ t.status = "pending" ∧
       ∀ d ∈ t.dependencies, ∃ u, u ∈ proj.tasks ∧ u.id = d ∧ u.status = "done")) ∧
    (∀ t ∈ compute_ready_tasks proj, ∀ d ∈ t.dependencies,
      ∃ u, u ∈ proj.tasks ∧ u.id = d) := by
  refine ⟨fun t => mem_compute_ready proj t, ?_⟩
  intro t ht d hd
  obtain ⟨_, _, hdep⟩ := (mem_compute_ready proj t).mp ht
  obtain ⟨u, hu, hid, _⟩ := hdep d hd
  exact ⟨u, hu, hid⟩

theorem claim_C1_witness :
    exDag.mode = "dag" ∧
    ((∀ t, t ∈ compute_ready_tasks exDag ↔
      (t ∈ exDag.tasks ∧ t.status = "pending" ∧
       ∀ d ∈ t.dependencies, ∃ u, u ∈ exDag.tasks ∧ u.id = d ∧ u.status = "done")) ∧
     (∀ t ∈ compute_ready_tasks exDag, ∀ d ∈ t.dependencies,
       ∃ u, u ∈ exDag.tasks ∧ u.id = d)) :=
  ⟨rfl, claim_C1 exDag rfl⟩

/-- C2: for every dag-mode project (with the data model's unique task ids),
`detect_cycles` returns an empty sequence iff the dependency relation (edge
task → dependency) is acyclic: empty for every acyclic relation, non-empty
for every relation containing a directed cycle. -/
theorem claim_C2 (proj : Project) (hm : proj.mode = "dag")
    (hn : (proj.tasks.map (fun t => t.id)).Nodup) :
    detect_cycles proj = [] ↔ ¬ hasCycle proj.tasks :=
  detect_cycles_empty_iff proj hn

theorem claim_C2_witness :
    exDag.mode = "dag" ∧ (exDag.tasks.map (fun t => t.id)).Nodup ∧
    (detect_cycles exDag = [] ↔ ¬ hasCycle exDag.tasks) :=
  ⟨rfl, by decide, claim_C2 exDag rfl (by decide)⟩

/-- C3: for every dag-mode project (unique ids) and proposed new task, if
appending the task would make the dependency relation cyclic, the add
fails with a cycle error and the persisted record is the unchanged pre-add
record. -/
theorem claim_C3 (proj : Project) (task_id agent desc : String) (deps : List String)
    (hm : proj.mode = "dag")
    (hn : ((proj.tasks ++ [make_task task_id agent desc deps]).map
      (fun t => t.id)).Nodup)
    (hc : hasCycle (proj.tasks ++ [make_task task_id agent desc deps])) :
    cmd_add proj task_id agent desc deps =
      .error (.cycle (detect_cycles
        { proj with tasks := proj.tasks ++ [make_task task_id agent desc deps] })) ∧
    persistAfterAdd proj task_id agent desc deps = proj := by
  have hne : detect_cycles
      { proj with tasks := proj.tasks ++ [make_task task_id agent desc deps] } ≠ [] := by
    intro hemp
    exact (detect_cycles_empty_iff _ hn).mp hemp hc
  have herr : cmd_add proj task_id agent desc deps =
      .error (.cycle (detect_cycles
        { proj with tasks := proj.tasks ++ [make_task task_id agent desc deps] })) := by
    unfold cmd_add
    rw [if_neg (by simp [hm])]
    rw [if_neg (by simpa [List.isEmpty_iff] using hne)]
  refine ⟨herr, ?_⟩
  unfold persistAfterAdd
  rw [herr]

/-- The cyclic add used as the C3 witness: project holding `a` (dep `b`),
adding `b` (dep `a`). -/
def exDagHalfCycle : Project :=
  { exBase with tasks := [make_task "a" "" "" ["b"]] }

theorem claim_C3_witness :
    exDagHalfCycle.mode = "dag" ∧
    ((exDagHalfCycle.tasks ++ [make_task "b" "" "" ["a"]]).map
      (fun t => t.id)).Nodup ∧
    hasCycle (exDagHalfCycle.tasks ++ [make_task "b" "" "" ["a"]]) ∧
    (cmd_add exDagHalfCycle "b" "" "" ["a"] =
      .error (.cycle (detect_cycles
        { exDagHalfCycle with
          tasks := exDagHalfCycle.tasks ++ [make_task "b" "" "" ["a"]] })) ∧
     persistAfterAdd exDagHalfCycle "b" "" "" ["a"] = exDagHalfCycle) := by
  have he1 : depEdge (exDagHalfCycle.tasks ++ [make_task "b" "" "" ["a"]]) "a" "b" :=
    ⟨make_task "a" "" "" ["b"], by simp [exDagHalfCycle, exBase], rfl, by decide⟩
  have he2 : depEdge (exDagHalfCycle.tasks ++ [make_task "b" "" "" ["a"]]) "b" "a" :=
    ⟨make_task "b" "" "" ["a"], by simp [exDagHalfCycle, exBase], rfl, by decide⟩
  have hcyc : hasCycle (exDagHalfCycle.tasks ++ [make_task "b" "" "" ["a"]]) :=
    ⟨"a", Relation.TransGen.head he1 (Relation.TransGen.single he2)⟩
  exact ⟨rfl, by decide, hcyc,
    claim_C3 exDagHalfCycle "b" "" "" ["a"] rfl (by decide) hcyc⟩

/-- C9 fails on the code: `cmd_add` checks only for cycles, never for id
uniqueness, so adding a task whose id already exists succeeds and leaves the
project with duplicate task ids. -/
theorem claim_C9_counterexample :
    cmd_add exDag "a" "" "" [] =
      .ok { exDag with tasks := exDag.tasks ++ [make_task "a" "" "" []] } ∧
    ¬ ((({ exDag with tasks := exDag.tasks ++ [make_task "a" "" "" []] } : Project)).tasks.map
      (fun t => t.id)).Nodup := by
  refine ⟨?_, ?_⟩
  · rfl
  · decide

/-- C9 amended: the add operation preserves id uniqueness only for fresh
ids — if the project's task ids are unique and the added id is not already
present, a successful add leaves the ids unique.  (As stated the claim is
false: `cmd_add` performs no duplicate-id check, see the counterexample.) -/
theorem claim_C9 (proj : Project) (task_id agent desc : String) (deps : List String)
    (hm : proj.mode = "dag")
    (hn : (proj.tasks.map (fun t => t.id)).Nodup)
    (hfresh : task_id ∉ proj.tasks.map (fun t => t.id)) :
    ∀ p2, cmd_add proj task_id agent desc deps = .ok p2 →
      (p2.tasks.map (fun t => t.id)).Nodup := by
  intro p2 hok
  unfold cmd_add at hok
  rw [if_neg (by simp [hm])] at hok
  by_cases hemp : (detect_cycles
      { proj with tasks := proj.tasks ++ [make_task task_id agent desc deps] }).isEmpty
  · rw [if_pos hemp] at hok
    obtain rfl : { proj with tasks := proj.tasks ++ [make_task task_id agent desc deps] }
        = p2 := by injection hok
    rw [List.map_append, List.nodup_append]
    refine ⟨hn, by simp [make_task], ?_⟩
    intro x hx hy
    simp only [List.map_cons, List.map_nil, List.mem_cons, List.not_mem_nil, or_false] at hy
    have hexp : (make_task task_id agent desc deps).id = task_id := rfl
    rw [hexp] at hy
    subst hy
    exact hfresh hx
  · rw [if_neg hemp] at hok
    cases hok

theorem claim_C9_witness :
    exDag.mode = "dag" ∧ (exDag.tasks.map (fun t => t.id)).Nodup ∧
    "d" ∉ exDag.tasks.map (fun t => t.id) ∧
    ((({ exDag with tasks := exDag.tasks ++ [make_task "d" "" "" []] } : Project)).tasks.map
      (fun t => t.id)).Nodup := by
  refine ⟨rfl, by decide, by decide, ?_⟩
  exact claim_C9 exDag "d" "" "" [] rfl (by decide) (by decide)
    { exDag with tasks := exDag.tasks ++ [make_task "d" "" "" []] } (by rfl)

/-- C4: in a linear-mode project (unique stage ids), setting the stage at
index `i` to `"done"` advances the cursor by exactly one when `i` is the
cursor (surfacing the next stage's id when one exists), leaves the cursor
unchanged when `i` is not the cursor, and leaves the cursor at the stage
count when the cursor was on the last stage. -/
theorem claim_C4 (proj : Project) (target now : String) (i : Nat) (s : Item)
    (hm : proj.mode = "linear")
    (hn : (proj.stages.map (fun t => t.id)).Nodup)
    (hi : proj.stages[i]? = some s) (hid : s.id = target) :
    ∃ p2 note, cmd_update proj target "done" now = .ok (p2, note) ∧
      (i = proj.current_stage →
        p2.current_stage = proj.current_stage + 1 ∧
        note.advance = (proj.stages[i + 1]?).map (fun s2 => s2.id)) ∧
      (i ≠ proj.current_stage → p2.current_stage = proj.current_stage) ∧
      (i = proj.current_stage → i + 1 = proj.stages.length →
        p2.current_stage = proj.stages.length) := by
  have hup := updateFirst_nodup (updateItem "done" now) target proj.stages i s hn hi hid
  have hset : (proj.stages.set i (updateItem "done" now s))[i + 1]? =
      proj.stages[i + 1]? := List.getElem?_set_ne (by omega)
  by_cases hc : i = proj.current_stage
  · refine ⟨{ proj with stages := proj.stages.set i (updateItem "done" now s)
                        current_stage := i + 1 },
      { advance := ((proj.stages.set i (updateItem "done" now s))[i + 1]?).map
          (fun s2 => s2.id)
        unlocked := [] }, ?_, ?_, ?_, ?_⟩
    · simp [cmd_update, hm, hup, hc, VALID_STATUSES]
    · intro _
      exact ⟨by simp [hc], by simp [hset]⟩
    · intro hne; exact absurd hc hne
    · intro _ hlen
      simpa using hlen
  · refine ⟨{ proj with stages := proj.stages.set i (updateItem "done" now s) },
      { advance := none, unlocked := [] }, ?_, ?_, ?_, ?_⟩
    · simp [cmd_update, hm, hup, hc, VALID_STATUSES]
    · intro h; exact absurd h hc
    · intro _; rfl
    · intro h _; exact absurd h hc

theorem claim_C4_witness :
    exLinear.mode = "linear" ∧ (exLinear.stages.map (fun t => t.id)).Nodup ∧
    exLinear.stages[0]? = some (make_stage "x" "" "") ∧
    (make_stage "x" "" "").id = "x" ∧
    (∃ p2 note, cmd_update exLinear "x" "done" "t1" = .ok (p2, note) ∧
      (0 = exLinear.current_stage →
        p2.current_stage = exLinear.current_stage + 1 ∧
        note.advance = (exLinear.stages[0 + 1]?).map (fun s2 => s2.id)) ∧
      (0 ≠ exLinear.current_stage → p2.current_stage = exLinear.current_stage) ∧
      (0 = exLinear.current_stage → 0 + 1 = exLinear.stages.length →
        p2.current_stage = exLinear.stages.length)) :=
  ⟨rfl, by decide, by decide, rfl,
    claim_C4 exLinear "x" "t1" 0 (make_stage "x" "" "") rfl (by decide) (by decide) rfl⟩

/-- C6: in a dag-mode project (unique task ids), setting an existing task to
`"done"` surfaces exactly the ids of the full ready set computed on the
post-transition state; in particular every task that was already ready
before the transition (other than the target itself) is still listed — the
code performs no filtering to newly unblocked tasks. -/
theorem claim_C6 (proj : Project) (target now : String) (i : Nat) (t0 : Item)
    (hm : proj.mode = "dag")
    (hn : (proj.tasks.map (fun t => t.id)).Nodup)
    (hi : proj.tasks[i]? = some t0) (hid : t0.id = target) :
    ∃ p2 note, cmd_update proj target "done" now = .ok (p2, note) ∧
      p2.tasks = proj.tasks.set i (updateItem "done" now t0) ∧
      note.unlocked = (compute_ready_tasks p2).map (fun t => t.id) ∧
      (∀ u ∈ compute_ready_tasks proj, u.id ≠ target → u.id ∈ note.unlocked) := by
  have hup := updateFirst_nodup (updateItem "done" now) target proj.tasks i t0 hn hi hid
  have hilen : i < proj.tasks.length := by
    by_contra hge
    rw [List.getElem?_eq_none (by omega)] at hi
    cases hi
  refine ⟨{ proj with tasks := proj.tasks.set i (updateItem "done" now t0) },
    { advance := none
      unlocked := (compute_ready_tasks
        { proj with tasks := proj.tasks.set i (updateItem "done" now t0) }).map
        (fun t => t.id) }, ?_, rfl, rfl, ?_⟩
  · simp [cmd_update, hm, hup, VALID_STATUSES]
  · intro u hu hne
    set p2 : Project := { proj with tasks := proj.tasks.set i (updateItem "done" now t0) }
      with hp2
    obtain ⟨humem, hupend, hudep⟩ := (mem_compute_ready proj u).mp hu
    have hu2 : u ∈ p2.tasks := by
      obtain ⟨j, hj⟩ := List.mem_iff_getElem?.mp humem
      have hji : j ≠ i := by
        intro he
        rw [he, hi] at hj
        obtain rfl : t0 = u := Option.some.inj hj
        exact hne hid
      refine List.mem_iff_getElem?.mpr ⟨j, ?_⟩
      show (proj.tasks.set i (updateItem "done" now t0))[j]? = some u
      rw [List.getElem?_set_ne (fun h => hji h.symm)]
      exact hj
    have humem2 : u ∈ compute_ready_tasks p2 := by
      rw [mem_compute_ready]
      refine ⟨hu2, hupend, ?_⟩
      intro d hd
      obtain ⟨w, hw, hwid, hwdone⟩ := hudep d hd
      obtain ⟨k, hk⟩ := List.mem_iff_getElem?.mp hw
      by_cases hki : k = i
      · rw [hki, hi] at hk
        obtain rfl : t0 = w := Option.some.inj hk
        refine ⟨updateItem "done" now t0, ?_, ?_, ?_⟩
        · refine List.mem_iff_getElem?.mpr ⟨i, ?_⟩
          show (proj.tasks.set i (updateItem "done" now t0))[i]? = some _
          rw [List.getElem?_set_self hilen]
        · rw [(updateItem_frame "done" now t0).1]; exact hwid
        · exact (updateItem_frame "done" now t0).2.2.2.2.2
      · refine ⟨w, ?_, hwid, hwdone⟩
        refine List.mem_iff_getElem?.mpr ⟨k, ?_⟩
        show (proj.tasks.set i (updateItem "done" now t0))[k]? = some w
        rw [List.getElem?_set_ne (fun h => hki h.symm)]
        exact hk
    exact List.mem_map_of_mem (fun t => t.id) humem2

theorem claim_C6_witness :
    exDag.mode = "dag" ∧ (exDag.tasks.map (fun t => t.id)).Nodup ∧
    exDag.tasks[1]? = some (make_task "b" "" "" ["a"]) ∧
    (make_task "b" "" "" ["a"]).id = "b" ∧
    (∃ p2 note, cmd_update exDag "b" "done" "t1" = .ok (p2, note) ∧
      p2.tasks = exDag.tasks.set 1 (updateItem "done" "t1" (make_task "b" "" "" ["a"])) ∧
      note.unlocked = (compute_ready_tasks p2).map (fun t => t.id) ∧
      (∀ u ∈ compute_ready_tasks exDag, u.id ≠ "b" → u.id ∈ note.unlocked)) :=
  ⟨rfl, by decide, by decide, rfl,
    claim_C6 exDag "b" "t1" 1 (make_task "b" "" "" ["a"]) rfl (by decide) (by decide) rfl⟩

/-- Writing back the mode-appropriate collection changes nothing else. -/
theorem itemsOf_setItems (proj : Project) (l : List Item) :
    itemsOf (setItems proj l) = l := by
  unfold itemsOf setItems
  by_cases h : proj.mode == "linear" <;> simp [h]

theorem setItems_frame (proj : Project) (l : List Item) :
    (setItems proj l).mode = proj.mode ∧
    (setItems proj l).name = proj.name ∧
    (setItems proj l).goal = proj.goal ∧
    (setItems proj l).created_at = proj.created_at ∧
    (setItems proj l).workspace = proj.workspace ∧
    (setItems proj l).current_stage = proj.current_stage ∧
    (setItems proj l).debaters = proj.debaters ∧
    (setItems proj l).rounds = proj.rounds ∧
    (setItems proj l).question = proj.question ∧
    (proj.mode = "linear" → (setItems proj l).tasks = proj.tasks) ∧
    (proj.mode ≠ "linear" → (setItems proj l).stages = proj.stages) := by
  unfold setItems
  by_cases h : proj.mode == "linear"
  · rw [if_pos h]
    exact ⟨rfl, rfl, rfl, rfl, rfl, rfl, rfl, rfl, rfl, fun _ => rfl,
      fun hne => absurd (by simpa using h) hne⟩
  · rw [if_neg h]
    exact ⟨rfl, rfl, rfl, rfl, rfl, rfl, rfl, rfl, rfl,
      fun he => absurd (by simp [he]) h, fun _ => rfl⟩

/-- C7: `record_result` on an existing id stores the result text
unconditionally and promotes exactly `pending` items to `in-progress` with
`assigned_at` stamped; on an unknown id it fails with not-found. -/
theorem claim_C7 (proj : Project) (target text now : String)
    (hn : ((itemsOf proj).map (fun t => t.id)).Nodup) :
    (∀ (i : Nat) (item : Item), (itemsOf proj)[i]? = some item → item.id = target →
      ∃ p2, cmd_result proj target text now = .ok p2 ∧
        (itemsOf p2)[i]? = some (resultItem text now item) ∧
        (resultItem text now item).result = text ∧
        (item.status = "pending" →
          (resultItem text now item).status = "in-progress" ∧
          (resultItem text now item).assigned_at = now) ∧
        (item.status ≠ "pending" →
          (resultItem text now item).status = item.status ∧
          (resultItem text now item).assigned_at = item.assigned_at)) ∧
    ((∀ item ∈ itemsOf proj, item.id ≠ target) →
      cmd_result proj target text now = .error .notFound) := by
  constructor
  · intro i item hi hid
    have hup := updateFirst_nodup (resultItem text now) target (itemsOf proj) i item hn hi hid
    have hilen : i < (itemsOf proj).length := by
      by_contra hge
      rw [List.getElem?_eq_none (by omega)] at hi
      cases hi
    refine ⟨setItems proj ((itemsOf proj).set i (resultItem text now item)),
      ?_, ?_, ?_, ?_, ?_⟩
    · simp [cmd_result, hup]
    · rw [itemsOf_setItems]
      exact List.getElem?_set_self hilen
    · unfold resultItem
      split_ifs <;> rfl
    · intro hp; constructor <;> simp [resultItem, hp]
    · intro hp
      constructor <;> simp [resultItem, fun h => hp (by simpa using h)]
  · intro hnone
    have h := updateFirst_eq_none (fun y => y.id == target) (resultItem text now)
      (itemsOf proj) (fun x hx => by simpa using hnone x hx)
    simp [cmd_result, h]

theorem claim_C7_witness :
    ((exDag.tasks.map (fun t => t.id)).Nodup ∧
     itemsOf exDag = exDag.tasks) ∧
    (∃ p2, cmd_result exDag "b" "r" "t1" = .ok p2 ∧
      (itemsOf p2)[1]? = some (resultItem "r" "t1" (make_task "b" "" "" ["a"])) ∧
      (resultItem "r" "t1" (make_task "b" "" "" ["a"])).result = "r" ∧
      ((make_task "b" "" "" ["a"]).status = "pending" →
        (resultItem "r" "t1" (make_task "b" "" "" ["a"])).status = "in-progress" ∧
        (resultItem "r" "t1" (make_task "b" "" "" ["a"])).assigned_at = "t1") ∧
      ((make_task "b" "" "" ["a"]).status ≠ "pending" →
        (resultItem "r" "t1" (make_task "b" "" "" ["a"])).status =
          (make_task "b" "" "" ["a"]).status ∧
        (resultItem "r" "t1" (make_task "b" "" "" ["a"])).assigned_at =
          (make_task "b" "" "" ["a"]).assigned_at)) ∧
    cmd_result exDag "zzz" "r" "t1" = .error .notFound := by
  refine ⟨⟨by decide, rfl⟩, ?_, ?_⟩
  · exact (claim_C7 exDag "b" "r" "t1" (by decide)).1 1 (make_task "b" "" "" ["a"])
      (by decide) rfl
  · exact (claim_C7 exDag "zzz" "r" "t1" (by decide)).2 (by decide)

/-- C10: on an item whose status is not `pending`, `record_result` changes
only that item's `result` field; its other fields, every other item, and
every other component of the project record are unchanged. -/
theorem claim_C10 (proj : Project) (target text now : String) (i : Nat) (item : Item)
    (hn : ((itemsOf proj).map (fun t => t.id)).Nodup)
    (hi : (itemsOf proj)[i]? = some item) (hid : item.id = target)
    (hst : item.status ≠ "pending") :
    ∃ p2, cmd_result proj target text now = .ok p2 ∧
      (∃ item2, (itemsOf p2)[i]? = some item2 ∧
        item2.result = text ∧
        item2.status = item.status ∧
        item2.assigned_at = item.assigned_at ∧
        item2.completed_at = item.completed_at ∧
        item2.id = item.id ∧
        item2.agent = item.agent ∧
        item2.description = item.description ∧
        item2.dependencies = item.dependencies) ∧
      (∀ j, j ≠ i → (itemsOf p2)[j]? = (itemsOf proj)[j]?) ∧
      p2.mode = proj.mode ∧
      p2.name = proj.name ∧
      p2.goal = proj.goal ∧
      p2.created_at = proj.created_at ∧
      p2.workspace = proj.workspace ∧
      p2.current_stage = proj.current_stage ∧
      p2.debaters = proj.debaters ∧
      p2.rounds = proj.rounds ∧
      p2.question = proj.question ∧
      (proj.mode = "linear" → p2.tasks = proj.tasks) ∧
      (proj.mode ≠ "linear" → p2.stages = proj.stages) := by
  have hup := updateFirst_nodup (resultItem text now) target (itemsOf proj) i item hn hi hid
  have hilen : i < (itemsOf proj).length := by
    by_contra hge
    rw [List.getElem?_eq_none (by omega)] at hi
    cases hi
  have hres : resultItem text now item = { item with result := text } := by
    unfold resultItem
    rw [if_neg (by simpa using hst)]
  refine ⟨setItems proj ((itemsOf proj).set i (resultItem text now item)), ?_, ?_, ?_, ?_⟩
  · simp [cmd_result, hup]
  · refine ⟨{ item with result := text }, ?_, rfl, rfl, rfl, rfl, rfl, rfl, rfl, rfl⟩
    rw [itemsOf_setItems, ← hres]
    exact List.getElem?_set_self hilen
  · intro j hj
    rw [itemsOf_setItems]
    exact List.getElem?_set_ne (fun h => hj h.symm)
  · obtain ⟨h1, h2, h3, h4, h5, h6, h7, h8, h9, h10, h11⟩ :=
      setItems_frame proj ((itemsOf proj).set i (resultItem text now item))
    exact ⟨h1, h2, h3, h4, h5, h6, h7, h8, h9, h10, h11⟩

theorem claim_C10_witness :
    ((itemsOf exDag).map (fun t => t.id)).Nodup ∧
    (itemsOf exDag)[0]? = some
      { make_task "a" "" "" [] with status := "done", completed_at := "t0" } ∧
    ({ make_task "a" "" "" [] with status := "done", completed_at := "t0" } : Item).id = "a" ∧
    ({ make_task "a" "" "" [] with status := "done", completed_at := "t0" } : Item).status
      ≠ "pending" ∧
    (∃ p2, cmd_result exDag "a" "r" "t1" = .ok p2 ∧ p2.rounds = exDag.rounds) := by
  refine ⟨by decide, by decide, rfl, by decide, ?_⟩
  obtain ⟨p2, hok, _, _, _, _, _, _, _, _, _, hr, _, _, _⟩ :=
    claim_C10 exDag "a" "r" "t1" 0
      { make_task "a" "" "" [] with status := "done", completed_at := "t0" }
      (by decide) (by decide) rfl (by decide)
  exact ⟨p2, hok, hr⟩

/-! ## Round-list helper lemmas -/

theorem updateLast_getD_lt (f : Round → Round) :
    ∀ (l : List Round) (i : Nat), i + 1 < l.length →
      (updateLast f l).getD i default = l.getD i default := by
  intro l
  induction l with
  | nil => intro i h; simp at h
  | cons a l ih =>
    intro i h
    cases l with
    | nil => simp at h
    | cons b l2 =>
      cases i with
      | zero => simp [updateLast]
      | succ j =>
        have hih := ih j (by simpa using h)
        simp only [updateLast, List.getD_cons_succ]
        exact hih

theorem updateLast_getD_last (f : Round → Round) :
    ∀ l : List Round, l ≠ [] →
      (updateLast f l).getD (l.length - 1) default =
        f (l.getD (l.length - 1) default) := by
  intro l
  induction l with
  | nil => intro h; exact absurd rfl h
  | cons a l ih =>
    intro _
    cases l with
    | nil => simp [updateLast]
    | cons b l2 =>
      have hih := ih (List.cons_ne_nil b l2)
      show (a :: updateLast f (b :: l2)).getD ((b :: l2).length + 1 - 1) default = _
      simp only [Nat.add_sub_cancel, List.length_cons, List.getD_cons_succ]
      simpa using hih

theorem updateLast_getD_phase (f : Round → Round) (hf : ∀ r, (f r).phase = r.phase) :
    ∀ (l : List Round) (i : Nat),
      ((updateLast f l).getD i default).phase = (l.getD i default).phase := by
  intro l
  induction l with
  | nil => intro i; simp [updateLast]
  | cons a l ih =>
    intro i
    cases l with
    | nil =>
      cases i with
      | zero => simp [updateLast, hf]
      | succ j => simp [updateLast]
    | cons b l2 =>
      cases i with
      | zero => simp [updateLast]
      | succ j =>
        simp only [updateLast, List.getD_cons_succ]
        exact ih j

theorem phaseRank_le_two (p : String) : phaseRank p ≤ 2 := by
  unfold phaseRank
  split_ifs <;> omega

theorem phaseRank_le_one_of_ne (p : String) (h : p ≠ "synthesis") : phaseRank p ≤ 1 := by
  unfold phaseRank
  split_ifs with h1 h2
  · exact absurd (by simpa using h1) h
  · omega
  · omega

theorem currentRoundPhase_eq_getD (proj : Project) (h : proj.rounds ≠ []) :
    currentRoundPhase proj =
      some ((proj.rounds.getD (proj.rounds.length - 1) default).phase) := by
  have hlen : proj.rounds.length - 1 < proj.rounds.length := by
    have hne : proj.rounds.length ≠ 0 := fun h0 => h (List.eq_nil_of_length_eq_zero h0)
    omega
  unfold currentRoundPhase
  rw [List.getLast?_eq_getElem?, List.getElem?_eq_getElem hlen,
    List.getD_eq_getElem?_getD, List.getElem?_eq_getElem hlen]
  rfl

theorem getD_append_lt (l1 l2 : List Round) (i : Nat) (h : i < l1.length) :
    (l1 ++ l2).getD i default = l1.getD i default := by
  rw [List.getD_eq_getElem?_getD, List.getD_eq_getElem?_getD, List.getElem?_append,
    if_pos h]

/-- C5 fails on the code: the `cross-review` action sets the current
round's phase unconditionally, so a round already in phase `synthesis`
moves *backward* to `cross-review`. -/
theorem claim_C5_counterexample :
    cmd_round exDebate "cross-review" "" "" "t1" =
      .ok { exDebate with rounds :=
        [{ round_number := 1, phase := "cross-review", started_at := "t0", responses := [] }] } ∧
    currentRoundPhase exDebate = some "synthesis" ∧
    phaseRank "cross-review" < phaseRank "synthesis" :=
  ⟨by rfl, by rfl, by decide⟩

/-- C5 amended: a round's phase never moves backward under any engine
operation *except* applying `cross-review` while the current round is in
phase `synthesis` (each phase-advance operation sets the phase
unconditionally; `synthesize` and every other operation are forward or
neutral).  As originally stated the claim is false — see the
counterexample. -/
theorem claim_C5 (proj : Project) (action debater_id text now : String) (p2 : Project)
    (hexc : ¬ (action = "cross-review" ∧ currentRoundPhase proj = some "synthesis"))
    (hok : cmd_round proj action debater_id text now = .ok p2) :
    ∀ i, i < proj.rounds.length →
      phaseRank ((proj.rounds.getD i default).phase) ≤
      phaseRank ((p2.rounds.getD i default).phase) := by
  intro i hi
  by_cases hmode : proj.mode = "debate"
  case neg =>
    exfalso
    have hb : (proj.mode == "debate") = false := by simpa using hmode
    simp [cmd_round, hb] at hok
  case pos =>
    have hb : (proj.mode == "debate") = true := by simp [hmode]
    have hne : proj.rounds ≠ [] := by
      intro he
      rw [he] at hi
      simp at hi
    have hbe : proj.rounds.isEmpty = false := by
      simpa [List.isEmpty_iff] using hne
    by_cases h1 : action = "start"
    · subst h1
      simp [cmd_round, hb] at hok
      subst hok
      refine le_of_eq ?_
      dsimp only
      rw [getD_append_lt _ _ i hi]
    · have hs1 : (action == "start") = false := by simpa using h1
      by_cases h2 : action = "submit"
      · subst h2
        cases hlast : proj.rounds.getLast? with
        | none =>
          exact absurd (List.getLast?_eq_none_iff.mp hlast) hne
        | some cur =>
          simp [cmd_round, hb, hlast] at hok
          subst hok
          have hph := updateLast_getD_phase
            (fun r => { r with responses := r.responses ++
              [{ debater_id := debater_id
                 content := text
                 submitted_at := now
                 phase := cur.phase }] }) (fun r => rfl) proj.rounds i
          refine le_of_eq ?_
          dsimp only
          rw [hph]
      · have hs2 : (action == "submit") = false := by simpa using h2
        by_cases h3 : action = "cross-review"
        · subst h3
          have hsynne : currentRoundPhase proj ≠ some "synthesis" :=
            fun h => hexc ⟨rfl, h⟩
          simp [cmd_round, hb, hbe] at hok
          subst hok
          rcases Nat.lt_or_ge (i + 1) proj.rounds.length with hlt | hge
          · refine le_of_eq ?_
            dsimp only
            rw [updateLast_getD_lt _ proj.rounds i hlt]
          · have hieq : i = proj.rounds.length - 1 := by omega
            subst hieq
            have hold : (proj.rounds.getD (proj.rounds.length - 1) default).phase ≠
                "synthesis" := by
              intro hsyn
              exact hsynne (by rw [currentRoundPhase_eq_getD proj hne, hsyn])
            refine le_trans (phaseRank_le_one_of_ne _ hold) ?_
            dsimp only
            rw [updateLast_getD_last _ proj.rounds hne]
            exact Nat.le_refl 1
        · have hs3 : (action == "cross-review") = false := by simpa using h3
          by_cases h4 : action = "synthesize"
          · subst h4
            simp [cmd_round, hb, hs1, hs2, hs3, hbe] at hok
            subst hok
            rcases Nat.lt_or_ge (i + 1) proj.rounds.length with hlt | hge
            · refine le_of_eq ?_
              dsimp only
              rw [updateLast_getD_lt _ proj.rounds i hlt]
            · have hieq : i = proj.rounds.length - 1 := by omega
              subst hieq
              refine le_trans (phaseRank_le_two _) ?_
              dsimp only
              rw [updateLast_getD_last _ proj.rounds hne]
              exact Nat.le_refl 2
          · have hs4 : (action == "synthesize") = false := by simpa using h4
            by_cases h5 : action = "status"
            · subst h5
              simp [cmd_round, hb, hs1, hs2, hs3, hs4] at hok
              subst hok
              exact Nat.le_refl _
            · have hs5 : (action == "status") = false := by simpa using h5
              exfalso
              simp [cmd_round, hb, hs1, hs2, hs3, hs4, hs5] at hok

theorem claim_C5_witness :
    (¬ ("synthesize" = "cross-review" ∧ currentRoundPhase exDebate = some "synthesis")) ∧
    cmd_round exDebate "synthesize" "" "" "t1" = .ok exDebate ∧
    phaseRank ((exDebate.rounds.getD 0 default).phase) ≤
      phaseRank ((exDebate.rounds.getD 0 default).phase) := by
  refine ⟨by simp, by rfl, ?_⟩
  exact claim_C5 exDebate "synthesize" "" "" "t1" exDebate (by simp) (by rfl) 0 (by decide)

/-- C8: in debate mode, `start_round` always succeeds and appends a round
numbered one past the previous count, in phase `initial`, with no
responses — regardless of any existing round's phase. -/
theorem claim_C8 (proj : Project) (debater_id text now : String)
    (hm : proj.mode = "debate") :
    cmd_round proj "start" debater_id text now =
      .ok { proj with rounds := proj.rounds ++
        [{ round_number := proj.rounds.length + 1
           phase := "initial"
           started_at := now
           responses := [] }] } := by
  simp [cmd_round, hm]

theorem claim_C8_witness :
    exDebate.mode = "debate" ∧
    cmd_round exDebate "start" "" "" "t1" =
      .ok { exDebate with rounds := exDebate.rounds ++
        [{ round_number := exDebate.rounds.length + 1
           phase := "initial"
           started_at := "t1"
           responses := [] }] } :=
  ⟨rfl, claim_C8 exDebate "" "" "t1" rfl⟩

end TeamTasks
